import Mathlib

/-!
Verification development for the node-based dataflow simulation prototypes of
the repository (prototype8.py, simpletype5.py, prototype4.py).  Numeric values
are modelled with exact rationals; Python object identity is modelled with
stable integer ids or list indices, as noted on each definition.
-/

namespace Spec2Proof

/-! ## Embedding of prototype8.py (approaches/vcvApproach/prototype8)

Every concrete node kind in prototype8 (ConstantNode, AddNode, MultiplyNode,
IntegratorNode, GainNode) declares exactly one output port named "out", so a
node's output ports are represented by a single rational `outVal`.  An input
port in prototype8 stores a list of connected output ports and
`Port.get_value` reads `self.connections[0].value` (the first connection) or
0.0 when unconnected; connections are represented by the list of source node
indices, and `get_value` takes the head of that list. -/

/-- The closed set of node kinds of prototype8 with their constructor
parameters (`ConstantNode.value`, `IntegratorNode.initial_value`,
`GainNode.gain`). -/
inductive P8Kind where
  | constant (value : ℚ)
  | add
  | multiply
  | integrator (initial : ℚ)
  | gain (g : ℚ)
deriving DecidableEq, Repr

/-- A prototype8 node: its kind, the connection lists of its (at most two)
input ports (`conns1` for "a"/"in", `conns2` for "b"), its internal state
(`self.state["value"]`, used only by integrators), and the value of its single
output port "out". -/
structure P8Node where
  kind : P8Kind
  conns1 : List ℕ
  conns2 : List ℕ
  state : ℚ
  outVal : ℚ
deriving DecidableEq, Repr

instance : Inhabited P8Node := ⟨⟨P8Kind.add, [], [], 0, 0⟩⟩

/-- Semantics of `Port.get_value` for an input port: the value of the first connected
output port, or 0.0 if the port has no connection. -/
def P8Node.get_value (ns : List P8Node) (conns : List ℕ) : ℚ :=
  match conns with
  | [] => 0
  | i :: _ => (ns.getD i default).outVal

/-- One node's `compute(dt)`: reads its inputs from the current node list
(so it sees values already written earlier in the same pass) and writes its
state and output, exactly as the corresponding Python `compute` bodies do. -/
def P8Node.compute (dt : ℚ) (ns : List P8Node) (n : P8Node) : P8Node :=
  match n.kind with
  | P8Kind.constant v => { n with outVal := v }
  | P8Kind.add =>
      { n with outVal := P8Node.get_value ns n.conns1 + P8Node.get_value ns n.conns2 }
  | P8Kind.multiply =>
      { n with outVal := P8Node.get_value ns n.conns1 * P8Node.get_value ns n.conns2 }
  | P8Kind.integrator _ =>
      let s := n.state + P8Node.get_value ns n.conns1 * dt
      { n with state := s, outVal := s }
  | P8Kind.gain g =>
      { n with outVal := P8Node.get_value ns n.conns1 * g }

/-- The loop `for node in self.nodes: node.compute(self.dt)` restricted to the
first `k` nodes: nodes are processed in list order, each one reading the
partially updated list. -/
def computeUpTo (dt : ℚ) : ℕ → List P8Node → List P8Node
  | 0, ns => ns
  | k + 1, ns =>
      let m := computeUpTo dt k ns
      m.set k (P8Node.compute dt m (m.getD k default))

/-- The whole compute pass of `SimulationEngine.step`. -/
def computeAll (dt : ℚ) (ns : List P8Node) : List P8Node :=
  computeUpTo dt ns.length ns

/-- Models `list.append(x)` followed by `if len(list) > cap: list.pop(0)` — the
bounded-history push used in `SimulationEngine.step` (and, with the same
shape, in `Scope.evaluate` of simpletype5). -/
def pushCap (cap : ℕ) (x : ℚ) (l : List ℚ) : List ℚ :=
  let l' := l ++ [x]
  if cap < l'.length then l'.drop 1 else l'

/-- Per-node history entry: the "time" list and the "out" value list kept in
`SimulationEngine.history` (all prototype8 node kinds have the single output
port "out"). -/
structure P8Hist where
  times : List ℚ
  outs : List ℚ
deriving DecidableEq, Repr

instance : Inhabited P8Hist := ⟨⟨[], []⟩⟩

/-- The `SimulationEngine` state: node list, simulated time, step size, the
per-node history (kept index-aligned with `nodes`; a missing dict entry is an
empty pair of lists) and `max_history`. -/
structure P8Engine where
  nodes : List P8Node
  time : ℚ
  dt : ℚ
  history : List P8Hist
deriving DecidableEq, Repr

/-- The capacity `max_history = 1000`. -/
def maxHistory : ℕ := 1000

/-- Semantics of `Node.reset` / `IntegratorNode.reset`: integrators restore
`state["value"] = initial_value`; all other kinds clear their (unused) state
dict.  Port values are not touched. -/
def P8Node.resetNode (n : P8Node) : P8Node :=
  match n.kind with
  | P8Kind.integrator init => { n with state := init }
  | _ => { n with state := 0 }

/-- Semantics of `SimulationEngine.reset`: `self.time = 0.0`, `self.history = {}` and
`node.reset()` for every node.  Output-port values are left as they are. -/
def P8Engine.reset (e : P8Engine) : P8Engine :=
  { e with
    time := 0
    history := List.replicate e.nodes.length default
    nodes := e.nodes.map P8Node.resetNode }

/-- The history-recording part of `SimulationEngine.step`: appends the current
time and the output value for each node, trimming both lists to
`max_history`. -/
def recordHist (t : ℚ) (ns : List P8Node) (hs : List P8Hist) : List P8Hist :=
  (List.range ns.length).map fun i =>
    let h := hs.getD i default
    ⟨pushCap maxHistory t h.times, pushCap maxHistory (ns.getD i default).outVal h.outs⟩

/-- Semantics of `SimulationEngine.step`: compute all nodes in list order, record history,
then `self.time += self.dt`. -/
def P8Engine.step (e : P8Engine) : P8Engine :=
  let ns := computeAll e.dt e.nodes
  { e with
    nodes := ns
    history := recordHist e.time ns e.history
    time := e.time + e.dt }

/-- Runs `n` consecutive calls of `SimulationEngine.step`. -/
def P8Engine.run : ℕ → P8Engine → P8Engine
  | 0, e => e
  | n + 1, e => P8Engine.run n e.step

/-- A freshly constructed engine over freshly constructed nodes:
`SimulationEngine(nodes)` with time 0 and empty history. -/
def P8Engine.mk' (dt : ℚ) (ns : List P8Node) : P8Engine :=
  ⟨ns, 0, dt, List.replicate ns.length default⟩

/-! ## Embedding of simpletype5.py (project/vcvApproach)

Modules are kept in `App.modules` and cables in `App.cables`; Python object
identity of modules is modelled by a stable integer id `mid` (unique by
construction: the GUI only ever creates fresh module objects).  A module's
user code, executed by `exec` inside `Module.evaluate` over a mutable `env`
dict seeded with the input values, is modelled as a sequence of assignments
that may stop at a raised exception: mutations made before the raise persist
in `env`, exactly as with `exec`. -/

/-- The `env` dict of `Module.evaluate`. -/
def Env := List (String × ℚ)

/-- Dict read `env.get(name, 0.0)`. -/
def envGet (env : Env) (k : String) : ℚ :=
  match env.find? (fun p => p.1 = k) with
  | none => 0
  | some p => p.2

/-- Dict write `env[name] = v` (dict assignment: one binding per key). -/
def envSet (env : Env) (k : String) (v : ℚ) : Env :=
  (env.filter (fun p => p.1 ≠ k)) ++ [(k, v)]

/-- One step of a user-supplied module body: an assignment of an expression
(in the current environment) to a name, or a raised exception. -/
inductive Stmt where
  | assign (name : String) (rhs : Env → ℚ)
  | raiseErr

/-- Models `exec(self.code, ..., env)` under the bare `try/except: pass` of
`Module.evaluate`: statements run in order, mutating `env`; a raised
exception stops execution, keeping all earlier mutations. -/
def runCode : Env → List Stmt → Env
  | env, [] => env
  | env, Stmt.assign k f :: rest => runCode (envSet env k (f env)) rest
  | env, Stmt.raiseErr :: _ => env

/-- Holds exactly when the statement list contains no raise. -/
def noRaise : List Stmt → Prop
  | [] => True
  | Stmt.assign _ _ :: rest => noRaise rest
  | Stmt.raiseErr :: _ => False

/-- A simpletype5 `Port`: name, position relative to its module and current
value. -/
structure SPort where
  name : String
  relx : ℚ
  rely : ℚ
  value : ℚ

/-- A simpletype5 `Module` (or `Scope` when `isScope` is set): id, canvas
position, input and output port lists, user code, and — for scopes — the
history length and the per-input history buffers. -/
structure SMod where
  mid : ℕ
  x : ℚ
  y : ℚ
  inputs : List SPort
  outputs : List SPort
  code : List Stmt
  isScope : Bool
  historyLen : ℕ
  scopeHist : List (String × List ℚ)

/-- A `Cable`: references its endpoint ports through the owning module's id
and the port name (Python holds the two `Port` objects directly; by
construction `src` is an output port and `dst` an input port). -/
structure SCable where
  srcMid : ℕ
  srcName : String
  dstMid : ℕ
  dstName : String
deriving DecidableEq, Repr

/-- The `App` state that the tick reads and writes. -/
structure AppState where
  modules : List SMod
  cables : List SCable

instance : Inhabited SMod := ⟨⟨0, 0, 0, [], [], [], false, 0, []⟩⟩

/-- Tick phase 1: `for m in self.modules: for p in m.inputs: p.value = 0.0`. -/
def zeroInputs (m : SMod) : SMod :=
  { m with inputs := m.inputs.map fun p => { p with value := 0 } }

def phase1 (ms : List SMod) : List SMod := ms.map zeroInputs

/-- The value of the port named `pname` in a port list (0 if absent). -/
def portVal (ps : List SPort) (pname : String) : ℚ :=
  match ps.find? (fun p => p.name = pname) with
  | none => 0
  | some p => p.value

/-- Whether a port list owns a port named `pname`. -/
def hasPort (ps : List SPort) (pname : String) : Bool :=
  (ps.find? (fun p => p.name = pname)).isSome

/-- Reading `c.src.value`: the value of output port `pname` of the module
`mid` (0 if absent — unreachable for cables built by the GUI). -/
def getOutVal (ms : List SMod) (mid : ℕ) (pname : String) : ℚ :=
  match ms.find? (fun m => m.mid = mid) with
  | none => 0
  | some m => portVal m.outputs pname

/-- The input-port counterpart, for stating theorems. -/
def getInVal (ms : List SMod) (mid : ℕ) (pname : String) : ℚ :=
  match ms.find? (fun m => m.mid = mid) with
  | none => 0
  | some m => portVal m.inputs pname

/-- Whether module `mid` has an input port named `pname`. -/
def hasInputPort (ms : List SMod) (mid : ℕ) (pname : String) : Bool :=
  match ms.find? (fun m => m.mid = mid) with
  | none => false
  | some m => hasPort m.inputs pname

/-- The update `c.dst.value += v` on the port list holding the destination port. -/
def addPortVal : List SPort → String → ℚ → List SPort
  | [], _, _ => []
  | p :: ps, pname, v =>
    if p.name = pname then { p with value := p.value + v } :: ps
    else p :: addPortVal ps pname v

/-- The update `c.dst.value += v` on the module list (first module with the given id,
first input port with the given name — object identity). -/
def addInVal : List SMod → ℕ → String → ℚ → List SMod
  | [], _, _, _ => []
  | m :: ms, mid, pname, v =>
    if m.mid = mid then { m with inputs := addPortVal m.inputs pname v } :: ms
    else m :: addInVal ms mid pname v

/-- Tick phase 2: `for c in self.cables: c.dst.value += float(c.src.value)`
(fan-in sum; the redraw try/except is GUI-only). -/
def propagate (ms : List SMod) (cables : List SCable) : List SMod :=
  cables.foldl (fun acc c => addInVal acc c.dstMid c.dstName (getOutVal acc c.srcMid c.srcName)) ms

/-- The dict `inputs = {p.name: float(p.value) for p in m.inputs}`, then the noise
injection `if "noise" in inputs: inputs["noise"] = (random.random()-0.5)*2`
with the random sample supplied as `noiseV`. -/
def inputsEnv (noiseV : ℚ) (m : SMod) : Env :=
  let env := m.inputs.map fun p => (p.name, p.value)
  if m.inputs.any (fun p => p.name = "noise") then envSet env "noise" noiseV else env

/-- Tick phase 3 for one module: `Scope.evaluate` appends each input value to
its bounded history buffer; a plain `Module.evaluate` runs the user code and
writes `env.get(name, 0.0)` to each declared output port. -/
def evalStep (noiseV : ℚ) (m : SMod) : SMod :=
  let env0 := inputsEnv noiseV m
  if m.isScope then
    { m with scopeHist := m.scopeHist.map fun kb =>
        (kb.1, pushCap m.historyLen (envGet env0 kb.1) kb.2) }
  else
    let env1 := runCode env0 m.code
    { m with outputs := m.outputs.map fun p => { p with value := envGet env1 p.name } }

/-- Tick phase 3 over all modules in list order; the noise stream is indexed
by module position, starting at `i`. -/
def phase3Aux (noise : ℕ → ℚ) : ℕ → List SMod → List SMod
  | _, [] => []
  | i, m :: ms => evalStep (noise i) m :: phase3Aux noise (i + 1) ms

def phase3 (noise : ℕ → ℚ) (ms : List SMod) : List SMod :=
  phase3Aux noise 0 ms

/-- Semantics of `App._do_tick` (label/plot updates omitted): zero inputs, propagate along
cables, evaluate every module. -/
def doTick (noise : ℕ → ℚ) (app : AppState) : AppState :=
  { app with modules := phase3 noise (propagate (phase1 app.modules) app.cables) }

/-- Semantics of `App._stop_sim`: zero every port value of every module and reset every
scope history buffer to `[0.0] * history_len`. -/
def stopSim (app : AppState) : AppState :=
  { app with modules := app.modules.map fun m =>
      let m1 : SMod := { m with
        inputs := m.inputs.map (fun p => { p with value := 0 })
        outputs := m.outputs.map (fun p => { p with value := 0 }) }
      if m1.isScope then
        { m1 with scopeHist := m1.scopeHist.map (fun kb => (kb.1, List.replicate m1.historyLen 0)) }
      else m1 }

/-- Semantics of `App._delete_module`: first remove every cable with an endpoint on the
module, then remove the module itself. -/
def deleteModule (app : AppState) (mid : ℕ) : AppState :=
  { modules := app.modules.eraseP (fun m => m.mid = mid)
    cables := app.cables.filter fun c => ¬(c.srcMid = mid ∨ c.dstMid = mid) }

/-- The hit test `within_circle(x, y, cx, cy)` with the default radius `PORT_R + 2 = 9`. -/
def withinCircle (x y cx cy : ℚ) : Bool :=
  (x - cx) ^ 2 + (y - cy) ^ 2 ≤ (9 : ℚ) ^ 2

/-- The input-port search of `App._on_left_release`: the first input port of
the first module whose circle contains the release point. -/
def findTarget : List SMod → ℚ → ℚ → Option (ℕ × String)
  | [], _, _ => none
  | m :: rest, ex, ey =>
    match m.inputs.find? (fun p => withinCircle ex ey (m.x + p.relx) (m.y + p.rely)) with
    | some p => some (m.mid, p.name)
    | none => findTarget rest ex ey

/-- Completing a wire drag in `App._on_left_release`: if the release point
hits a live input port a cable from the dragged source is appended; otherwise
nothing happens (no error of any kind is produced). -/
def finishConnect (app : AppState) (src : ℕ × String) (ex ey : ℚ) : AppState :=
  match findTarget app.modules ex ey with
  | some t => { app with cables := app.cables ++ [⟨src.1, src.2, t.1, t.2⟩] }
  | none => app

/-! ## Embedding of prototype4.py (project/vcvApproach)

`App._finish_drag` enforces a single cable per input: it removes every
existing cable into the target port, then appends the new one.  Ports are
identified by their Python object identity, modelled as integer ids. -/

/-- A prototype4 cable, as a (source port id, destination port id) pair. -/
structure P4Cable where
  src : ℕ
  dst : ℕ
deriving DecidableEq, Repr

/-- Semantics of `App._finish_drag` once a target input port is found: delete every cable
whose destination is that port, then append the new cable. -/
def finishDrag (cables : List P4Cable) (src dst : ℕ) : List P4Cable :=
  (cables.filter fun c => c.dst ≠ dst) ++ [⟨src, dst⟩]

/-- Any sequence of completed connect operations, starting from the empty
cable list a fresh prototype4 `App` has. -/
def runOps (ops : List (ℕ × ℕ)) : List P4Cable :=
  ops.foldl (fun cs op => finishDrag cs op.1 op.2) []

/-! ## Derived notions used in the statements -/

/-- The initial condition `reset` restores, per node kind. -/
def stateInit : P8Kind → ℚ
  | P8Kind.integrator init => init
  | _ => 0

/-- Node `i` is fed directly by node `j`: some input of `i` is connected to
`j`'s output. -/
def feeds (ns : List P8Node) (j i : ℕ) : Prop :=
  j ∈ (ns.getD i default).conns1 ∨ j ∈ (ns.getD i default).conns2

/-- The order `SimulationEngine.step` visits the nodes: plain list order
(`for node in self.nodes`). -/
def evalOrder (ns : List P8Node) : List ℕ := List.range ns.length

/-- The ordering property the claim asserts: every node strictly after all
nodes that feed it directly. -/
def orderRespectsDeps (ns : List P8Node) : Prop :=
  ∀ i j, feeds ns j i → (evalOrder ns).indexOf j < (evalOrder ns).indexOf i

/-- A graph is acyclic iff its dependency relation admits a strictly
monotone ranking. -/
def hasRanking (ns : List P8Node) : Prop :=
  ∃ rank : ℕ → ℕ, ∀ i j, feeds ns j i → rank j < rank i

/-- All history buffers of an engine are within `max_history`. -/
def histBounded (e : P8Engine) : Prop :=
  ∀ h ∈ e.history, h.times.length ≤ maxHistory ∧ h.outs.length ≤ maxHistory

/-- The cables reaching input port `(mid, pname)`. -/
def targets (mid : ℕ) (pname : String) (c : SCable) : Bool :=
  c.dstMid == mid && c.dstName == pname

/-! ## Concrete fixtures -/

/-- Gain node listed before the constant that feeds it: an acyclic graph the
engine evaluates in an order violating the claimed topological property. -/
def g3 : List P8Node :=
  [⟨P8Kind.gain 1, [1], [], 0, 0⟩, ⟨P8Kind.constant 2, [], [], 0, 0⟩]

/-- Constant → Integrator → Gain, all with `dt = 1`: the gain node is listed
after the integrator, so the value it consumes is the integrator's same-tick
output. -/
def e2ce : P8Engine :=
  P8Engine.mk' 1
    [⟨P8Kind.constant 1, [], [], 0, 0⟩,
     ⟨P8Kind.integrator 0, [0], [], 0, 0⟩,
     ⟨P8Kind.gain 1, [1], [], 0, 0⟩]

/-- The graph `Constant(2.0) -> Integrator.in` with `dt = 0.5` and integrator
initial state 0; the nodes are listed in creation order, constant first. -/
def e4 : P8Engine :=
  P8Engine.mk' (1 / 2)
    [⟨P8Kind.constant 2, [], [], 0, 0⟩, ⟨P8Kind.integrator 0, [0], [], 0, 0⟩]

/-- Gain listed before the constant feeding it, wrapped in an engine: running
it leaves nonzero output-port values behind, which `reset` does not clear. -/
def e6 : P8Engine :=
  P8Engine.mk' (1 / 100)
    [⟨P8Kind.gain 1, [1], [], 0, 0⟩, ⟨P8Kind.constant 2, [], [], 0, 0⟩]

/-- A simpletype5 `Scope` with capacity 2 whose buffer holds two samples. -/
def scope7 : SMod :=
  { mid := 0, x := 0, y := 0, inputs := [⟨"in1", 0, 0, 0⟩], outputs := [],
    code := [], isScope := true, historyLen := 2, scopeHist := [("in1", [1, 2])] }

def app7 : AppState := ⟨[scope7], []⟩

/-- Fan-in example for witnesses: two constant-output modules wired into the
one input port of module 0. -/
def appC1 : AppState :=
  ⟨[⟨0, 0, 0, [⟨"in", 0, 0, 0⟩], [], [], false, 0, []⟩,
    ⟨1, 0, 0, [], [⟨"out", 0, 0, 3⟩], [], false, 0, []⟩,
    ⟨2, 0, 0, [], [⟨"out", 0, 0, 4⟩], [], false, 0, []⟩],
   [⟨1, "out", 0, "in"⟩, ⟨2, "out", 0, "in"⟩]⟩

/-- A module whose body assigns output `y := 5` and then raises; output `z`
is never assigned. -/
def mod5 : SMod :=
  ⟨0, 0, 0, [], [⟨"y", 0, 0, 0⟩, ⟨"z", 0, 0, 0⟩],
   [Stmt.assign "y" (fun _ => 5), Stmt.raiseErr], false, 0, []⟩

def app5 : AppState := ⟨[mod5], []⟩

/-- Modules 0, 1, 2 (no canvas input ports), with one cable onto module 0 and
one between the surviving modules. -/
def app8w : AppState :=
  ⟨[⟨0, 0, 0, [], [], [], false, 0, []⟩,
    ⟨1, 300, 0, [], [], [], false, 0, []⟩,
    ⟨2, 600, 0, [], [], [], false, 0, []⟩],
   [⟨1, "out", 0, "in"⟩, ⟨1, "out", 2, "in"⟩]⟩

/-- Module 0 with an input port "in" at canvas position (18, 56), fed by
module 1's output. -/
def mod8a : SMod :=
  ⟨0, 0, 0, [⟨"in", 18, 56, 0⟩], [], [], false, 0, []⟩

def mod8b : SMod :=
  ⟨1, 500, 0, [], [⟨"out", -18, 56, 0⟩], [], false, 0, []⟩

def app8 : AppState := ⟨[mod8a, mod8b], [⟨1, "out", 0, "in"⟩]⟩

/-! ## General list helpers -/

theorem default_times : (default : P8Hist).times = [] := rfl

theorem default_outs : (default : P8Hist).outs = [] := rfl

theorem getD_set_self {α : Type} (l : List α) (i : ℕ) (x d : α) (h : i < l.length) :
    (l.set i x).getD i d = x := by
  simp [List.getD, List.getElem?_set, h]

theorem getD_set_of_ne {α : Type} (l : List α) (i j : ℕ) (x d : α) (h : i ≠ j) :
    (l.set i x).getD j d = l.getD j d := by
  simp [List.getD, List.getElem?_set, h]

/-! ## Semantics of the prototype8 compute pass -/

theorem computeUpTo_length (dt : ℚ) (k : ℕ) (ns : List P8Node) :
    (computeUpTo dt k ns).length = ns.length := by
  induction k with
  | zero => rfl
  | succ k ih => simp [computeUpTo, List.length_set, ih]

theorem computeUpTo_getD_of_le (dt : ℚ) (ns : List P8Node) (d : P8Node) :
    ∀ k j, k ≤ j → (computeUpTo dt k ns).getD j d = ns.getD j d := by
  intro k
  induction k with
  | zero => intro j _; rfl
  | succ k ih =>
    intro j hj
    have hkj : k ≠ j := by omega
    calc (computeUpTo dt (k + 1) ns).getD j d
        = (computeUpTo dt k ns).getD j d := getD_set_of_ne _ _ _ _ _ hkj
      _ = ns.getD j d := ih j (by omega)

theorem computeUpTo_getD_stable (dt : ℚ) (ns : List P8Node) (d : P8Node) (i : ℕ) :
    ∀ k, i < k → (computeUpTo dt k ns).getD i d = (computeUpTo dt (i + 1) ns).getD i d := by
  intro k
  induction k with
  | zero => omega
  | succ k ih =>
    intro hik
    rcases Nat.lt_or_ge i k with hlt | hge
    · have hki : k ≠ i := by omega
      calc (computeUpTo dt (k + 1) ns).getD i d
          = (computeUpTo dt k ns).getD i d := getD_set_of_ne _ _ _ _ _ hki
        _ = (computeUpTo dt (i + 1) ns).getD i d := ih hlt
    · have : i = k := by omega
      subst this
      rfl

theorem computeAll_getD (dt : ℚ) (ns : List P8Node) (i : ℕ)
    (h : i < ns.length) :
    (computeAll dt ns).getD i default
      = P8Node.compute dt (computeUpTo dt i ns) (ns.getD i default) := by
  have hlen : (computeUpTo dt i ns).length = ns.length := computeUpTo_length dt i ns
  calc (computeAll dt ns).getD i default
      = (computeUpTo dt (i + 1) ns).getD i default := by
        by_cases hi : i + 1 = ns.length
        · rw [computeAll, hi]
        · exact computeUpTo_getD_stable dt ns default i ns.length h
    _ = P8Node.compute dt (computeUpTo dt i ns) ((computeUpTo dt i ns).getD i default) := by
        rw [computeUpTo, getD_set_self _ _ _ _ (by omega)]
    _ = P8Node.compute dt (computeUpTo dt i ns) (ns.getD i default) := by
        rw [computeUpTo_getD_of_le dt ns default i i (le_refl i)]

theorem run_succ (n : ℕ) (e : P8Engine) :
    P8Engine.run (n + 1) e = (P8Engine.run n e).step := by
  induction n generalizing e with
  | zero => rfl
  | succ n ih =>
    show P8Engine.run (n + 1) e.step = (P8Engine.run (n + 1) e).step
    rw [ih]
    rfl

theorem step_dt (e : P8Engine) : e.step.dt = e.dt := rfl

theorem resetNode_eq (n : P8Node) :
    n.resetNode = ⟨n.kind, n.conns1, n.conns2, stateInit n.kind, n.outVal⟩ := by
  cases n with
  | mk k c1 c2 s o => cases k <;> rfl

theorem map_resetNode_congr :
    ∀ (l1 l2 : List P8Node),
      l1.map P8Node.kind = l2.map P8Node.kind →
      l1.map P8Node.conns1 = l2.map P8Node.conns1 →
      l1.map P8Node.conns2 = l2.map P8Node.conns2 →
      l1.map P8Node.outVal = l2.map P8Node.outVal →
      l1.map P8Node.resetNode = l2.map P8Node.resetNode
  | [], [], _, _, _, _ => rfl
  | [], _ :: _, hk, _, _, _ => by simp at hk
  | _ :: _, [], hk, _, _, _ => by simp at hk
  | a :: l1, b :: l2, hk, h1, h2, ho => by
    simp only [List.map_cons, List.cons.injEq] at *
    refine ⟨?_, map_resetNode_congr l1 l2 hk.2 h1.2 h2.2 ho.2⟩
    rw [resetNode_eq a, resetNode_eq b, hk.1, h1.1, h2.1, ho.1]

/-! ## Bounded-history push -/

theorem pushCap_length_le (cap : ℕ) (x : ℚ) (l : List ℚ) (h : l.length ≤ cap) :
    (pushCap cap x l).length ≤ cap := by
  unfold pushCap
  by_cases hc : cap < (l ++ [x]).length
  · rw [if_pos hc]
    simp
    omega
  · rw [if_neg hc]
    simp at hc ⊢
    omega

theorem pushCap_evicts_oldest (cap : ℕ) (x : ℚ) (l : List ℚ)
    (h : l.length = cap) (hpos : 0 < cap) :
    pushCap cap x l = l.drop 1 ++ [x] := by
  unfold pushCap
  have hlt : cap < (l ++ [x]).length := by simp [h]
  rw [if_pos hlt, List.drop_append_of_le_length (by omega)]

/-! ## The node-dependency relation and the engine's evaluation order -/

theorem default_conns1 : (default : P8Node).conns1 = [] := rfl

theorem default_conns2 : (default : P8Node).conns2 = [] := rfl

/-- C3, counterexample: the two-node graph `g3` is acyclic (node 1 feeds
node 0 and nothing else), yet the engine's evaluation order — plain node-list
order, there is no `topological_batches` or Kahn's algorithm anywhere in the
code — visits the gain node before the constant node that feeds it. -/
theorem c3_no_topological_order : hasRanking g3 ∧ ¬ orderRespectsDeps g3 := by
  constructor
  · refine ⟨fun i => if i = 1 then 0 else 1, ?_⟩
    intro i j hf
    match i with
    | 0 =>
      have hj : j = 1 := by
        rcases hf with hf | hf
        · simpa [feeds, g3] using hf
        · simp [feeds, g3] at hf
      subst hj
      simp
    | 1 =>
      rcases hf with hf | hf <;> simp [feeds, g3] at hf
    | (n + 2) =>
      rcases hf with hf | hf <;>
        simp [feeds, g3, List.getD, default_conns1, default_conns2] at hf
  · intro h
    have hfeeds : feeds g3 1 0 := Or.inl (by decide)
    have := h 0 1 hfeeds
    rw [evalOrder] at this
    revert this
    decide

/-- C3, amended: the engine evaluates nodes in node-list order; the node at
position `i` is computed against the state in which only the nodes listed
before it have been updated, and every node at position `≥ i` — in
particular any feeder listed after `i` — still holds its previous-tick
output value. -/
theorem c3_evaluation_in_list_order (dt : ℚ) (ns : List P8Node) (i : ℕ)
    (h : i < ns.length) :
    (computeAll dt ns).getD i default
        = P8Node.compute dt (computeUpTo dt i ns) (ns.getD i default)
      ∧ ∀ j, i ≤ j → (computeUpTo dt i ns).getD j default = ns.getD j default :=
  ⟨computeAll_getD dt ns i h, fun j hj => computeUpTo_getD_of_le dt ns default i j hj⟩

/-- Witness for `c3_evaluation_in_list_order` at the concrete graph `g3`. -/
theorem c3_evaluation_in_list_order_witness :
    (computeAll 1 g3).getD 0 default
        = P8Node.compute 1 (computeUpTo 1 0 g3) (g3.getD 0 default)
      ∧ ∀ j, 0 ≤ j → (computeUpTo 1 0 g3).getD j default = g3.getD j default :=
  c3_evaluation_in_list_order 1 g3 0 (by decide)

/-- C2, counterexample: after one tick of `e2ce` the gain node's output is
1 — it consumed the integrator's output value written in the *same* tick —
whereas the claim (consumers see the integrator's end-of-previous-tick
value, here 0) would make it 0. -/
theorem c2_same_tick_write_observed :
    ((P8Engine.run 1 e2ce).nodes.getD 2 default).outVal
      ≠ (e2ce.nodes.getD 1 default).outVal * 1 := by
  norm_num [P8Engine.run, P8Engine.step, e2ce, P8Engine.mk', computeAll, computeUpTo,
    P8Node.compute, P8Node.get_value, List.getD]

/-- C9: `SimulationEngine.reset` zeroes the simulated time, empties every
history buffer and restores every node's internal state to its initial
condition, while leaving `dt`, the graph structure and — crucially — every
output-port value untouched, so pre-reset output values remain readable and
feed the first post-reset tick. -/
theorem c9_reset_keeps_port_values (e : P8Engine) :
    e.reset.time = 0
      ∧ e.reset.dt = e.dt
      ∧ e.reset.history = List.replicate e.nodes.length ⟨[], []⟩
      ∧ e.reset.nodes.map P8Node.outVal = e.nodes.map P8Node.outVal
      ∧ e.reset.nodes.map P8Node.kind = e.nodes.map P8Node.kind
      ∧ e.reset.nodes.map P8Node.conns1 = e.nodes.map P8Node.conns1
      ∧ e.reset.nodes.map P8Node.conns2 = e.nodes.map P8Node.conns2
      ∧ e.reset.nodes.map P8Node.state = e.nodes.map (fun n => stateInit n.kind) := by
  refine ⟨rfl, rfl, rfl, ?_, ?_, ?_, ?_, ?_⟩ <;>
    · show (e.nodes.map P8Node.resetNode).map _ = _
      rw [List.map_map]
      exact List.map_congr_left fun n _ => by
        rw [Function.comp_apply, resetNode_eq n]

/-! ## The Constant → Integrator scenario (dt = 1/2) -/

theorem c4_step_nodes (e : P8Engine) (w s : ℚ)
    (hdt : e.dt = 1 / 2)
    (hn : e.nodes = [⟨P8Kind.constant 2, [], [], 0, w⟩,
                     ⟨P8Kind.integrator 0, [0], [], s, s⟩]) :
    e.step.nodes = [⟨P8Kind.constant 2, [], [], 0, 2⟩,
                    ⟨P8Kind.integrator 0, [0], [], s + 1, s + 1⟩] := by
  norm_num [P8Engine.step, computeAll, hn, hdt, computeUpTo, P8Node.compute,
    P8Node.get_value, List.getD]

theorem c4_run_nodes (n : ℕ) :
    (P8Engine.run n e4).dt = 1 / 2
      ∧ (P8Engine.run n e4).nodes
          = [⟨P8Kind.constant 2, [], [], 0, if n = 0 then 0 else 2⟩,
             ⟨P8Kind.integrator 0, [0], [], (n : ℚ), (n : ℚ)⟩] := by
  induction n with
  | zero => exact ⟨rfl, by norm_num [P8Engine.run, e4, P8Engine.mk']⟩
  | succ n ih =>
    rw [run_succ]
    refine ⟨by rw [step_dt]; exact ih.1, ?_⟩
    rw [c4_step_nodes (P8Engine.run n e4) _ _ ih.1 ih.2]
    push_cast
    norm_num

/-- C4: in `Constant(2.0) -> Integrator.in` with `dt = 0.5`, after `n ≥ 1`
ticks the integrator's output port holds exactly `2.0 · 0.5 · n`. -/
theorem c4_integrator_accumulates (n : ℕ) (h : 1 ≤ n) :
    ((P8Engine.run n e4).nodes.getD 1 default).outVal = 2 * (1 / 2) * n := by
  rw [(c4_run_nodes n).2]
  simp [List.getD]

/-- Witness for `c4_integrator_accumulates` at `n = 3`. -/
theorem c4_integrator_accumulates_witness :
    1 ≤ 3 ∧ ((P8Engine.run 3 e4).nodes.getD 1 default).outVal
      = 2 * (1 / 2) * ((3 : ℕ) : ℚ) :=
  ⟨by norm_num, c4_integrator_accumulates 3 (by norm_num)⟩

/-! ## Deterministic replay -/

/-- C6, counterexample: one run over the starting graph begun by `reset()`
records gain output 0 on its first tick; running again after a second
`reset()` records 2, because `reset` left the constant's output-port value
at 2 — the two replayed traces differ. -/
theorem c6_replay_differs :
    (P8Engine.run 1 (P8Engine.run 1 e6).reset).history
      ≠ (P8Engine.run 1 e6.reset).history := by
  norm_num [P8Engine.run, P8Engine.step, P8Engine.reset, e6, P8Engine.mk', computeAll,
    computeUpTo, P8Node.compute, P8Node.get_value, P8Node.resetNode, List.getD,
    recordHist, pushCap, maxHistory, List.range_succ, default_times, default_outs]

/-- C6, amended: replay is deterministic once the port values agree — two
engines over the same graph (same kinds, connections, `dt`) whose nodes also
carry the same output-port values produce identical output-history traces
when each is begun by `reset()` and stepped the same number of times. -/
theorem c6_deterministic_replay (e1 e2 : P8Engine) (n : ℕ)
    (hdt : e1.dt = e2.dt)
    (hk : e1.nodes.map P8Node.kind = e2.nodes.map P8Node.kind)
    (hc1 : e1.nodes.map P8Node.conns1 = e2.nodes.map P8Node.conns1)
    (hc2 : e1.nodes.map P8Node.conns2 = e2.nodes.map P8Node.conns2)
    (ho : e1.nodes.map P8Node.outVal = e2.nodes.map P8Node.outVal) :
    (P8Engine.run n e1.reset).history = (P8Engine.run n e2.reset).history := by
  have hlen : e1.nodes.length = e2.nodes.length := by
    have := congrArg List.length hk
    simpa using this
  have hnodes := map_resetNode_congr e1.nodes e2.nodes hk hc1 hc2 ho
  have hreset : e1.reset = e2.reset := by
    unfold P8Engine.reset
    cases e1
    cases e2
    simp_all
  rw [hreset]

/-- Witness for `c6_deterministic_replay`: the engine replayed against
itself. -/
theorem c6_deterministic_replay_witness :
    (P8Engine.run 1 e6.reset).history = (P8Engine.run 1 e6.reset).history :=
  c6_deterministic_replay e6 e6 1 rfl rfl rfl rfl rfl

/-! ## Bounded history across whole runs -/

theorem hist_getD_bounded (hs : List P8Hist)
    (H : ∀ h ∈ hs, h.times.length ≤ maxHistory ∧ h.outs.length ≤ maxHistory) (i : ℕ) :
    (hs.getD i default).times.length ≤ maxHistory
      ∧ (hs.getD i default).outs.length ≤ maxHistory := by
  by_cases hi : i < hs.length
  · refine H _ ?_
    rw [List.getD_eq_getElem hs default hi]
    exact List.getElem_mem hi
  · rw [List.getD_eq_default hs default (by omega)]
    constructor <;> simp [default_times, default_outs]

theorem histBounded_step (e : P8Engine) (H : histBounded e) : histBounded e.step := by
  intro h hmem
  obtain ⟨i, _, rfl⟩ := List.mem_map.mp hmem
  exact ⟨pushCap_length_le _ _ _ (hist_getD_bounded e.history H i).1,
    pushCap_length_le _ _ _ (hist_getD_bounded e.history H i).2⟩

theorem histBounded_run (n : ℕ) (e : P8Engine) (H : histBounded e) :
    histBounded (P8Engine.run n e) := by
  induction n generalizing e with
  | zero => exact H
  | succ n ih => exact ih e.step (histBounded_step e H)

/-- C7, counterexample: `App._stop_sim` of simpletype5 does not empty the
scope's history buffer — it refills it with zeros, leaving its length at the
configured capacity instead of zero. -/
theorem c7_stop_refills_with_zeros :
    (stopSim app7).modules.map SMod.scopeHist = [[("in1", [0, 0])]]
      ∧ [(0 : ℚ), 0] ≠ ([] : List ℚ) :=
  ⟨rfl, by simp⟩

/-- C7, amended: every history buffer is a bounded FIFO — after any run from
a fresh engine no buffer exceeds `max_history`; an append to a full buffer
evicts exactly the oldest entry; prototype8's `reset` empties every buffer;
but simpletype5's `stop` refills each scope buffer with `[0.0] * history_len`
(zeros at full capacity) rather than emptying it. -/
theorem c7_history_fifo :
    (∀ (dt : ℚ) (g : List P8Node) (n : ℕ),
        ∀ h ∈ (P8Engine.run n (P8Engine.mk' dt g)).history,
          h.times.length ≤ maxHistory ∧ h.outs.length ≤ maxHistory)
      ∧ (∀ (cap : ℕ) (x : ℚ) (l : List ℚ), l.length = cap → 0 < cap →
          pushCap cap x l = l.drop 1 ++ [x])
      ∧ (∀ e : P8Engine, ∀ h ∈ e.reset.history, h.times = [] ∧ h.outs = [])
      ∧ (∀ app : AppState, ∀ m ∈ (stopSim app).modules, m.isScope = true →
          ∀ kb ∈ m.scopeHist, kb.2 = List.replicate m.historyLen 0) := by
  refine ⟨?_, pushCap_evicts_oldest, ?_, ?_⟩
  · intro dt g n
    refine histBounded_run n _ ?_
    intro h hmem
    have := List.eq_of_mem_replicate hmem
    subst this
    constructor <;> simp [default_times, default_outs]
  · intro e h hmem
    have := List.eq_of_mem_replicate hmem
    subst this
    exact ⟨rfl, rfl⟩
  · intro app m hmem hscope kb hkb
    obtain ⟨m0, _, rfl⟩ := List.mem_map.mp hmem
    by_cases hs : m0.isScope
    · simp only [stopSim, hs, if_pos] at hkb hscope ⊢
      obtain ⟨kb0, _, rfl⟩ := List.mem_map.mp hkb
      rfl
    · simp only [stopSim, hs] at hkb hscope ⊢
      simp at hscope

/-- Witness for `c7_history_fifo`, applied at a concrete run, a concrete full
buffer, a concrete reset and the concrete scope application. -/
theorem c7_history_fifo_witness :
    ((P8Engine.run 1 (P8Engine.mk' 1 [⟨P8Kind.constant 5, [], [], 0, 0⟩])).history.getD 0
        default).outs.length ≤ maxHistory
      ∧ pushCap 2 5 [1, 2] = List.drop 1 [1, 2] ++ [5] := by
  constructor
  · refine (c7_history_fifo.1 1 [⟨P8Kind.constant 5, [], [], 0, 0⟩] 1 _ ?_).2
    norm_num [P8Engine.run, P8Engine.step, P8Engine.mk', computeAll, computeUpTo,
      P8Node.compute, recordHist, List.getD, List.range_succ]
  · exact c7_history_fifo.2.1 2 5 [1, 2] (by norm_num) (by norm_num)

/-! ## Port-level propagation lemmas -/

theorem portVal_addPortVal_ne (ps : List SPort) (pn pn2 : String) (v : ℚ)
    (h : pn ≠ pn2) :
    portVal (addPortVal ps pn v) pn2 = portVal ps pn2 := by
  induction ps with
  | nil => rfl
  | cons p ps ih =>
    by_cases hp : p.name = pn
    · have hne : ¬p.name = pn2 := by rw [hp]; exact h
      simp [addPortVal, hp, portVal, List.find?, hne, h]
    · by_cases hp2 : p.name = pn2
      · have hq : ¬pn2 = pn := fun he => hp (hp2.trans he)
        simp [addPortVal, hp, hp2, portVal, List.find?, hq]
      · simp only [addPortVal, if_neg hp]
        simp [portVal, List.find?, hp2] at ih ⊢
        exact ih

theorem portVal_addPortVal_self (ps : List SPort) (pn : String) (v : ℚ)
    (h : hasPort ps pn = true) :
    portVal (addPortVal ps pn v) pn = portVal ps pn + v := by
  induction ps with
  | nil => simp [hasPort] at h
  | cons p ps ih =>
    by_cases hp : p.name = pn
    · simp [addPortVal, hp, portVal, List.find?]
    · have h' : hasPort ps pn = true := by
        simpa [hasPort, List.find?, hp] using h
      simp only [addPortVal, if_neg hp]
      simp [portVal, List.find?, hp] at ih ⊢
      exact ih h'

theorem hasPort_addPortVal (ps : List SPort) (pn pn2 : String) (v : ℚ) :
    hasPort (addPortVal ps pn v) pn2 = hasPort ps pn2 := by
  induction ps with
  | nil => rfl
  | cons p ps ih =>
    by_cases hp : p.name = pn
    · by_cases hq : pn = pn2
      · simp [addPortVal, hp, hasPort, List.find?, hq]
      · have hne : ¬p.name = pn2 := by rw [hp]; exact hq
        simp [addPortVal, hp, hasPort, List.find?, hq, hne]
    · by_cases hp2 : p.name = pn2
      · have hq : ¬pn2 = pn := fun he => hp (hp2.trans he)
        simp [addPortVal, hp, hp2, hasPort, List.find?, hq]
      · simp only [addPortVal, if_neg hp]
        simp [hasPort, List.find?, hp2] at ih ⊢
        exact ih

theorem portVal_zeroed (ps : List SPort) (pn : String) :
    portVal (ps.map fun p => { p with value := 0 }) pn = 0 := by
  induction ps with
  | nil => rfl
  | cons p ps ih =>
    by_cases hp : p.name = pn
    · simp [portVal, List.find?, hp]
    · simp [portVal, List.find?, hp] at ih ⊢
      exact ih

theorem hasPort_zeroed (ps : List SPort) (pn : String) :
    hasPort (ps.map fun p => { p with value := 0 }) pn = hasPort ps pn := by
  induction ps with
  | nil => rfl
  | cons p ps ih =>
    by_cases hp : p.name = pn
    · simp [hasPort, List.find?, hp]
    · simp [hasPort, List.find?, hp] at ih ⊢
      exact ih

/-! ## Module-level propagation lemmas -/

theorem getOutVal_addInVal (ms : List SMod) (mid mid2 : ℕ) (pn : String)
    (v : ℚ) (pname : String) :
    getOutVal (addInVal ms mid pn v) mid2 pname = getOutVal ms mid2 pname := by
  induction ms with
  | nil => rfl
  | cons m ms ih =>
    by_cases hm : m.mid = mid
    · by_cases heq : mid = mid2
      · simp [addInVal, hm, getOutVal, List.find?, heq]
      · have hne : ¬m.mid = mid2 := by rw [hm]; exact heq
        simp [addInVal, hm, getOutVal, List.find?, heq, hne]
    · by_cases hm2 : m.mid = mid2
      · have hq : ¬mid2 = mid := fun he => hm (hm2.trans he)
        simp [addInVal, hm, hm2, getOutVal, List.find?, hq]
      · simp only [addInVal, if_neg hm]
        simp [getOutVal, List.find?, hm2] at ih ⊢
        exact ih

theorem hasInputPort_addInVal (ms : List SMod) (mid mid2 : ℕ) (pn pn2 : String)
    (v : ℚ) :
    hasInputPort (addInVal ms mid pn v) mid2 pn2 = hasInputPort ms mid2 pn2 := by
  induction ms with
  | nil => rfl
  | cons m ms ih =>
    by_cases hm : m.mid = mid
    · by_cases heq : mid = mid2
      · simp [addInVal, hm, hasInputPort, List.find?, heq, hasPort_addPortVal]
      · have hne : ¬m.mid = mid2 := by rw [hm]; exact heq
        simp [addInVal, hm, hasInputPort, List.find?, heq, hne]
    · by_cases hm2 : m.mid = mid2
      · have hq : ¬mid2 = mid := fun he => hm (hm2.trans he)
        simp [addInVal, hm, hm2, hasInputPort, List.find?, hq]
      · simp only [addInVal, if_neg hm]
        simp [hasInputPort, List.find?, hm2] at ih ⊢
        exact ih

theorem getInVal_addInVal_ne (ms : List SMod) (mid mid2 : ℕ) (pn pn2 : String)
    (v : ℚ) (h : mid ≠ mid2 ∨ pn ≠ pn2) :
    getInVal (addInVal ms mid pn v) mid2 pn2 = getInVal ms mid2 pn2 := by
  induction ms with
  | nil => rfl
  | cons m ms ih =>
    by_cases hm : m.mid = mid
    · by_cases heq : mid = mid2
      · have hpn : pn ≠ pn2 := by
          rcases h with h | h
          · exact absurd heq h
          · exact h
        simp [addInVal, hm, getInVal, List.find?, heq,
          portVal_addPortVal_ne m.inputs pn pn2 v hpn]
      · have hne : ¬m.mid = mid2 := by rw [hm]; exact heq
        simp [addInVal, hm, getInVal, List.find?, heq, hne]
    · by_cases hm2 : m.mid = mid2
      · have hq : ¬mid2 = mid := fun he => hm (hm2.trans he)
        simp [addInVal, hm, hm2, getInVal, List.find?, hq]
      · simp only [addInVal, if_neg hm]
        simp [getInVal, List.find?, hm2] at ih ⊢
        exact ih

theorem getInVal_addInVal_self (ms : List SMod) (mid : ℕ) (pn : String) (v : ℚ)
    (h : hasInputPort ms mid pn = true) :
    getInVal (addInVal ms mid pn v) mid pn = getInVal ms mid pn + v := by
  induction ms with
  | nil => simp [hasInputPort] at h
  | cons m ms ih =>
    by_cases hm : m.mid = mid
    · have hp : hasPort m.inputs pn = true := by
        simpa [hasInputPort, List.find?, hm] using h
      simp [addInVal, hm, getInVal, List.find?,
        portVal_addPortVal_self m.inputs pn v hp]
    · have h' : hasInputPort ms mid pn = true := by
        simpa [hasInputPort, List.find?, hm] using h
      simp only [addInVal, if_neg hm]
      simp [getInVal, List.find?, hm] at ih ⊢
      exact ih h'

theorem addInVal_length (ms : List SMod) (mid : ℕ) (pn : String) (v : ℚ) :
    (addInVal ms mid pn v).length = ms.length := by
  induction ms with
  | nil => rfl
  | cons m ms ih =>
    by_cases hm : m.mid = mid
    · simp [addInVal, hm]
    · simp [addInVal, hm, ih]

/-! ## The propagation fold -/

theorem getOutVal_propagate (cables : List SCable) (ms : List SMod) (mid : ℕ)
    (pname : String) :
    getOutVal (propagate ms cables) mid pname = getOutVal ms mid pname := by
  induction cables generalizing ms with
  | nil => rfl
  | cons c cs ih =>
    show getOutVal (propagate (addInVal ms c.dstMid c.dstName _) cs) mid pname = _
    rw [ih, getOutVal_addInVal]

theorem hasInputPort_propagate (cables : List SCable) (ms : List SMod) (mid : ℕ)
    (pname : String) :
    hasInputPort (propagate ms cables) mid pname = hasInputPort ms mid pname := by
  induction cables generalizing ms with
  | nil => rfl
  | cons c cs ih =>
    show hasInputPort (propagate (addInVal ms c.dstMid c.dstName _) cs) mid pname = _
    rw [ih, hasInputPort_addInVal]

theorem propagate_length (cables : List SCable) (ms : List SMod) :
    (propagate ms cables).length = ms.length := by
  induction cables generalizing ms with
  | nil => rfl
  | cons c cs ih =>
    show (propagate (addInVal ms c.dstMid c.dstName _) cs).length = _
    rw [ih, addInVal_length]

/-- The heart of the propagation phase: each `dst.value += src.value` step
adds exactly the matching source values, so the fold over any cable list
accumulates the fan-in sum, reading only pre-propagation output values. -/
theorem getInVal_propagate (cables : List SCable) (ms : List SMod) (mid : ℕ)
    (pname : String) (h : hasInputPort ms mid pname = true) :
    getInVal (propagate ms cables) mid pname
      = getInVal ms mid pname
        + ((cables.filter (targets mid pname)).map
            (fun c => getOutVal ms c.srcMid c.srcName)).sum := by
  induction cables generalizing ms with
  | nil => simp [propagate]
  | cons c cs ih =>
    have hstep :
        propagate ms (c :: cs)
          = propagate (addInVal ms c.dstMid c.dstName
              (getOutVal ms c.srcMid c.srcName)) cs := rfl
    rw [hstep]
    set ms' := addInVal ms c.dstMid c.dstName (getOutVal ms c.srcMid c.srcName) with hms'
    have h' : hasInputPort ms' mid pname = true := by
      rw [hms', hasInputPort_addInVal]
      exact h
    rw [ih ms' h']
    have houts : ∀ c2 : SCable,
        getOutVal ms' c2.srcMid c2.srcName = getOutVal ms c2.srcMid c2.srcName := by
      intro c2
      rw [hms', getOutVal_addInVal]
    by_cases hc : targets mid pname c = true
    · have hdm : c.dstMid = mid ∧ c.dstName = pname := by
        simpa [targets, Bool.and_eq_true, beq_iff_eq] using hc
      have hsum : getInVal ms' mid pname
          = getInVal ms mid pname + getOutVal ms c.srcMid c.srcName := by
        rw [hms', ← hdm.1, ← hdm.2]
        exact getInVal_addInVal_self ms c.dstMid c.dstName _ (by rw [hdm.1, hdm.2]; exact h)
      rw [hsum, List.filter_cons_of_pos hc, List.map_cons, List.sum_cons]
      rw [List.map_congr_left fun c2 _ => houts c2]
      ring
    · have hdm : ¬(c.dstMid = mid ∧ c.dstName = pname) := by
        intro hand
        apply hc
        simp [targets, Bool.and_eq_true, beq_iff_eq, hand.1, hand.2]
      have hsum : getInVal ms' mid pname = getInVal ms mid pname := by
        rw [hms']
        refine getInVal_addInVal_ne ms c.dstMid mid c.dstName pname _ ?_
        by_cases h1 : c.dstMid = mid
        · exact Or.inr fun h2 => hdm ⟨h1, h2⟩
        · exact Or.inl h1
      rw [hsum, List.filter_cons_of_neg hc]
      rw [List.map_congr_left fun c2 _ => houts c2]

/-! ## Phase 1 lemmas -/

theorem getOutVal_phase1 (ms : List SMod) (mid : ℕ) (pname : String) :
    getOutVal (phase1 ms) mid pname = getOutVal ms mid pname := by
  induction ms with
  | nil => rfl
  | cons m ms ih =>
    by_cases hm : m.mid = mid
    · simp [phase1, zeroInputs, getOutVal, List.find?, hm]
    · simp [phase1, zeroInputs, getOutVal, List.find?, hm] at ih ⊢
      exact ih

theorem getInVal_phase1 (ms : List SMod) (mid : ℕ) (pname : String) :
    getInVal (phase1 ms) mid pname = 0 := by
  induction ms with
  | nil => rfl
  | cons m ms ih =>
    by_cases hm : m.mid = mid
    · simp [phase1, zeroInputs, getInVal, List.find?, hm, portVal_zeroed]
    · simp [phase1, zeroInputs, getInVal, List.find?, hm] at ih ⊢
      exact ih

theorem hasInputPort_phase1 (ms : List SMod) (mid : ℕ) (pname : String) :
    hasInputPort (phase1 ms) mid pname = hasInputPort ms mid pname := by
  induction ms with
  | nil => rfl
  | cons m ms ih =>
    by_cases hm : m.mid = mid
    · simp [phase1, zeroInputs, hasInputPort, List.find?, hm, hasPort_zeroed]
    · simp [phase1, zeroInputs, hasInputPort, List.find?, hm] at ih ⊢
      exact ih

theorem phase1_length (ms : List SMod) : (phase1 ms).length = ms.length := by
  simp [phase1]

/-! ## Phase 3 lemmas -/

theorem evalStep_mid (v : ℚ) (m : SMod) : (evalStep v m).mid = m.mid := by
  by_cases hs : m.isScope <;> simp [evalStep, hs]

theorem evalStep_inputs (v : ℚ) (m : SMod) : (evalStep v m).inputs = m.inputs := by
  by_cases hs : m.isScope <;> simp [evalStep, hs]

theorem getInVal_cons_pos (x : SMod) (xs : List SMod) (mid : ℕ) (pname : String)
    (h : x.mid = mid) :
    getInVal (x :: xs) mid pname = portVal x.inputs pname := by
  simp [getInVal, List.find?, h]

theorem getInVal_cons_neg (x : SMod) (xs : List SMod) (mid : ℕ) (pname : String)
    (h : ¬x.mid = mid) :
    getInVal (x :: xs) mid pname = getInVal xs mid pname := by
  simp [getInVal, List.find?, h]

theorem getInVal_phase3Aux (noise : ℕ → ℚ) (ms : List SMod) (mid : ℕ)
    (pname : String) :
    ∀ i, getInVal (phase3Aux noise i ms) mid pname = getInVal ms mid pname := by
  induction ms with
  | nil => intro i; rfl
  | cons m ms ih =>
    intro i
    show getInVal (evalStep (noise i) m :: phase3Aux noise (i + 1) ms) mid pname = _
    by_cases hm : m.mid = mid
    · rw [getInVal_cons_pos _ _ _ _ (by rw [evalStep_mid]; exact hm),
        getInVal_cons_pos _ _ _ _ hm, evalStep_inputs]
    · rw [getInVal_cons_neg _ _ _ _ (by rw [evalStep_mid]; exact hm),
        getInVal_cons_neg _ _ _ _ hm]
      exact ih (i + 1)

theorem phase3Aux_getD (noise : ℕ → ℚ) :
    ∀ (ms : List SMod) (i j : ℕ), j < ms.length →
      (phase3Aux noise i ms).getD j default = evalStep (noise (i + j)) (ms.getD j default)
  | [], _, _, h => absurd h (by simp)
  | m :: ms, i, 0, _ => by
    show (evalStep (noise i) m :: phase3Aux noise (i + 1) ms).getD 0 default
        = evalStep (noise (i + 0)) ((m :: ms).getD 0 default)
    rw [Nat.add_zero]
    rfl
  | m :: ms, i, j + 1, h => by
    have hrec := phase3Aux_getD noise ms (i + 1) j (by simpa using Nat.lt_of_succ_lt_succ h)
    show (evalStep (noise i) m :: phase3Aux noise (i + 1) ms).getD (j + 1) default
        = evalStep (noise (i + (j + 1))) ((m :: ms).getD (j + 1) default)
    have e1 : (evalStep (noise i) m :: phase3Aux noise (i + 1) ms).getD (j + 1) default
        = (phase3Aux noise (i + 1) ms).getD j default := rfl
    have e2 : (m :: ms).getD (j + 1) default = ms.getD j default := rfl
    have e3 : i + 1 + j = i + (j + 1) := by omega
    rw [e1, e2, hrec, e3]

/-- Shared characterisation: after zeroing and propagating, an existing input
port holds the fan-in sum of the pre-tick source output values. -/
theorem propagated_inVal (ms : List SMod) (cables : List SCable) (mid : ℕ)
    (pname : String) (h : hasInputPort ms mid pname = true) :
    getInVal (propagate (phase1 ms) cables) mid pname
      = ((cables.filter (targets mid pname)).map
          (fun c => getOutVal ms c.srcMid c.srcName)).sum := by
  have h1 : hasInputPort (phase1 ms) mid pname = true := by
    rw [hasInputPort_phase1]
    exact h
  rw [getInVal_propagate cables _ mid pname h1, getInVal_phase1, zero_add]
  exact congrArg List.sum
    (List.map_congr_left fun c _ => getOutVal_phase1 ms c.srcMid c.srcName)

/-- Shared characterisation: the tick computes, for every module position,
exactly the evaluation of that module's own zeroed-and-propagated state — no
module is skipped and no module's result depends on another's evaluation. -/
theorem doTick_getD (app : AppState) (noise : ℕ → ℚ) (i : ℕ)
    (hi : i < app.modules.length) :
    (doTick noise app).modules.getD i default
      = evalStep (noise i)
          ((propagate (phase1 app.modules) app.cables).getD i default) := by
  show (phase3 noise (propagate (phase1 app.modules) app.cables)).getD i default = _
  have hlen : i < (propagate (phase1 app.modules) app.cables).length := by
    rw [propagate_length, phase1_length]
    exact hi
  rw [phase3, phase3Aux_getD noise _ 0 i hlen, Nat.zero_add]

/-- C1: after the tick's propagation phase (zero all inputs, then
`dst.value += src.value` per cable) every existing input port holds exactly
the sum of its incoming sources' values — 0 for no connection — and the
result is invariant under any permutation of the cable-processing order. -/
theorem c1_input_fanin_sum (app : AppState) (mid : ℕ) (pname : String)
    (h : hasInputPort app.modules mid pname = true) :
    getInVal (propagate (phase1 app.modules) app.cables) mid pname
        = ((app.cables.filter (targets mid pname)).map
            (fun c => getOutVal app.modules c.srcMid c.srcName)).sum
      ∧ ∀ cables2 : List SCable, cables2.Perm app.cables →
          getInVal (propagate (phase1 app.modules) cables2) mid pname
            = getInVal (propagate (phase1 app.modules) app.cables) mid pname := by
  refine ⟨propagated_inVal app.modules app.cables mid pname h, ?_⟩
  intro cables2 hperm
  rw [propagated_inVal app.modules cables2 mid pname h,
    propagated_inVal app.modules app.cables mid pname h]
  exact ((hperm.filter (targets mid pname)).map
    (fun c => getOutVal app.modules c.srcMid c.srcName)).sum_eq

/-- Witness for `c1_input_fanin_sum`: two cables into one port, also
processed in the swapped order. -/
theorem c1_input_fanin_sum_witness :
    getInVal (propagate (phase1 appC1.modules) appC1.cables) 0 "in"
        = ((appC1.cables.filter (targets 0 "in")).map
            (fun c => getOutVal appC1.modules c.srcMid c.srcName)).sum
      ∧ getInVal (propagate (phase1 appC1.modules)
            [⟨2, "out", 0, "in"⟩, ⟨1, "out", 0, "in"⟩]) 0 "in"
          = getInVal (propagate (phase1 appC1.modules) appC1.cables) 0 "in" :=
  ⟨(c1_input_fanin_sum appC1 0 "in" (by decide)).1,
   (c1_input_fanin_sum appC1 0 "in" (by decide)).2 _ (List.Perm.swap _ _ _)⟩

/-- C2, amended: in the simpletype5 tick the whole propagation phase runs
before any module is evaluated, so every input-port value consumed during
evaluation is the fan-in sum of the *pre-tick* output values (evaluation
writes only output ports, so the post-tick input values are exactly what was
consumed), and each module's evaluation is a function of its own
zeroed-and-propagated state only. -/
theorem c2_tick_derives_from_previous_outputs (app : AppState) (noise : ℕ → ℚ)
    (mid : ℕ) (pname : String) (h : hasInputPort app.modules mid pname = true) :
    getInVal (doTick noise app).modules mid pname
        = ((app.cables.filter (targets mid pname)).map
            (fun c => getOutVal app.modules c.srcMid c.srcName)).sum
      ∧ ∀ i, i < app.modules.length →
          (doTick noise app).modules.getD i default
            = evalStep (noise i)
                ((propagate (phase1 app.modules) app.cables).getD i default) := by
  constructor
  · show getInVal (phase3 noise (propagate (phase1 app.modules) app.cables))
        mid pname = _
    rw [phase3, getInVal_phase3Aux]
    exact propagated_inVal app.modules app.cables mid pname h
  · exact fun i hi => doTick_getD app noise i hi

/-- Witness for `c2_tick_derives_from_previous_outputs` on the fan-in
example. -/
theorem c2_tick_derives_witness :
    getInVal (doTick (fun _ => 0) appC1).modules 0 "in"
        = ((appC1.cables.filter (targets 0 "in")).map
            (fun c => getOutVal appC1.modules c.srcMid c.srcName)).sum
      ∧ ∀ i, i < appC1.modules.length →
          (doTick (fun _ => 0) appC1).modules.getD i default
            = evalStep ((fun _ => (0 : ℚ)) i)
                ((propagate (phase1 appC1.modules) appC1.cables).getD i default) :=
  c2_tick_derives_from_previous_outputs appC1 (fun _ => 0) 0 "in" (by decide)

/-- C5, counterexample: when a module body raises midway, outputs assigned
*before* the raise keep their values — after the tick, `y` is 5, not the 0.0
the claim requires for all of the failing node's outputs (and the code keeps
no degraded flag or counter anywhere). -/
theorem c5_partial_output_not_zeroed :
    getOutVal (doTick (fun _ => 0) app5).modules 0 "y" = 5 ∧ (5 : ℚ) ≠ 0 := by
  constructor
  · norm_num [doTick, phase3, phase3Aux, propagate, phase1, app5, mod5, zeroInputs,
      evalStep, inputsEnv, runCode, envSet, envGet, getOutVal, portVal, List.find?,
      List.filter]
  · norm_num

/-- C5, amended: a raise inside a module body stops that body, keeping every
`env` mutation made before it (so unassigned outputs default to 0.0 while
earlier assignments persist), and the tick still evaluates every module from
its own propagated inputs — one module's failure never affects another
module's outputs for the tick, and the tick never aborts. -/
theorem c5_compute_error_containment :
    (∀ (env : Env) (pre post : List Stmt), noRaise pre →
        runCode env (pre ++ Stmt.raiseErr :: post) = runCode env pre)
      ∧ (∀ (app : AppState) (noise : ℕ → ℚ) (i : ℕ), i < app.modules.length →
          (doTick noise app).modules.getD i default
            = evalStep (noise i)
                ((propagate (phase1 app.modules) app.cables).getD i default)) := by
  constructor
  · intro env pre post hnr
    induction pre generalizing env with
    | nil => rfl
    | cons s pre ih =>
      cases s with
      | assign k f =>
        show runCode (envSet env k (f env)) (pre ++ Stmt.raiseErr :: post)
            = runCode (envSet env k (f env)) pre
        exact ih _ hnr
      | raiseErr => exact absurd hnr (by simp [noRaise])
  · exact fun app noise i hi => doTick_getD app noise i hi

/-- Witness for `c5_compute_error_containment`: a concrete raising body and
the concrete one-module application. -/
theorem c5_compute_error_containment_witness :
    runCode [] ([Stmt.assign "y" (fun _ => 5)] ++ Stmt.raiseErr :: [])
        = runCode [] [Stmt.assign "y" (fun _ => 5)]
      ∧ (doTick (fun _ => 0) app5).modules.getD 0 default
          = evalStep ((fun _ => (0 : ℚ)) 0)
              ((propagate (phase1 app5.modules) app5.cables).getD 0 default) :=
  ⟨c5_compute_error_containment.1 [] [Stmt.assign "y" (fun _ => 5)] []
      (by simp [noRaise]),
   c5_compute_error_containment.2 app5 (fun _ => 0) 0 (by norm_num [app5])⟩

/-! ## Node removal and subsequent connect attempts -/

theorem findTarget_mem :
    ∀ (ms : List SMod) (ex ey : ℚ) (t : ℕ × String),
      findTarget ms ex ey = some t → t.1 ∈ ms.map SMod.mid
  | [], _, _, t, h => by simp [findTarget] at h
  | m :: ms, ex, ey, t, h => by
    rw [findTarget] at h
    cases hf : m.inputs.find?
        (fun p => withinCircle ex ey (m.x + p.relx) (m.y + p.rely)) with
    | some p =>
      rw [hf] at h
      injection h with h2
      rw [← h2]
      simp
    | none =>
      rw [hf] at h
      have := findTarget_mem ms ex ey t h
      simp [this]

theorem mid_not_mem_eraseP (l : List SMod) (mid : ℕ)
    (hnd : (l.map SMod.mid).Nodup) :
    mid ∉ (l.eraseP (fun m => m.mid = mid)).map SMod.mid := by
  induction l with
  | nil => simp
  | cons m l ih =>
    rw [List.map_cons, List.nodup_cons] at hnd
    by_cases hm : m.mid = mid
    · rw [List.eraseP_cons_of_pos (by simp [hm])]
      intro hmem
      exact hnd.1 (hm ▸ hmem)
    · rw [List.eraseP_cons_of_neg (by simp [hm])]
      rw [List.map_cons]
      intro hmem
      rcases List.mem_cons.mp hmem with hmem | hmem
      · exact hm hmem.symm
      · exact ih hnd.2 hmem

/-- C8, amended: `_delete_module(n)` removes every cable with an endpoint on
`n`, and a subsequent connect attempt can never attach a cable onto `n` —
the release search only scans live modules' input ports — but the attempt is
silently ignored, the code raising no `NotFound` (or any other) error. -/
theorem c8_remove_node_cascades (app : AppState) (mid : ℕ)
    (hids : (app.modules.map SMod.mid).Nodup) :
    (∀ c ∈ (deleteModule app mid).cables, c.srcMid ≠ mid ∧ c.dstMid ≠ mid)
      ∧ ∀ (src : ℕ × String) (ex ey : ℚ) (c : SCable),
          c ∈ (finishConnect (deleteModule app mid) src ex ey).cables →
          c ∈ (deleteModule app mid).cables ∨ c.dstMid ≠ mid := by
  constructor
  · intro c hc
    have := List.of_mem_filter hc
    simp at this
    exact this
  · intro src ex ey c hc
    cases hft : findTarget (deleteModule app mid).modules ex ey with
    | none =>
      left
      simpa [finishConnect, hft] using hc
    | some t =>
      rw [finishConnect, hft] at hc
      simp only [List.mem_append, List.mem_singleton] at hc
      rcases hc with hc | hc
      · exact Or.inl hc
      · right
        have hmem := findTarget_mem _ ex ey t hft
        have hnotin : mid ∉ (deleteModule app mid).modules.map SMod.mid :=
          mid_not_mem_eraseP app.modules mid hids

        rw [hc]
        intro hdst
        exact hnotin (hdst ▸ hmem)

/-- Witness for `c8_remove_node_cascades` after deleting module 0 of
`app8w`. -/
theorem c8_remove_node_cascades_witness :
    ((⟨1, "out", 2, "in"⟩ : SCable).srcMid ≠ 0
        ∧ (⟨1, "out", 2, "in"⟩ : SCable).dstMid ≠ 0)
      ∧ ((⟨1, "out", 2, "in"⟩ : SCable) ∈ (deleteModule app8w 0).cables
          ∨ (⟨1, "out", 2, "in"⟩ : SCable).dstMid ≠ 0) :=
  ⟨(c8_remove_node_cascades app8w 0 (by decide)).1 _ (by decide),
   (c8_remove_node_cascades app8w 0 (by decide)).2 (1, "out") 0 0 _ (by decide)⟩

/-- C8, counterexample: deleting module 0 cascades (its cable disappears),
and the very wire-drop that connected onto module 0's input port before the
deletion now completes *silently with no effect* — the cable list is simply
unchanged; no `NotFound` error exists anywhere in the code's behaviour. -/
theorem c8_connect_after_delete_silent :
    (deleteModule app8 0).cables = []
      ∧ findTarget app8.modules 18 56 = some (0, "in")
      ∧ (finishConnect (deleteModule app8 0) (1, "out") 18 56).cables
          = (deleteModule app8 0).cables := by
  refine ⟨by decide, ?_, rfl⟩
  norm_num [findTarget, app8, mod8a, mod8b, withinCircle, List.find?]

/-! ## prototype4: one cable per input -/

theorem filter_ne_filter_eq_nil (cs : List P4Cable) (d : ℕ) :
    (cs.filter fun c => c.dst ≠ d).filter (fun c => c.dst = d) = [] := by
  induction cs with
  | nil => rfl
  | cons c cs ih =>
    by_cases hd : c.dst = d
    · simpa [List.filter, hd] using ih
    · simpa [List.filter, hd] using ih

theorem length_filter_filter_le (cs : List P4Cable) (q r : P4Cable → Bool) :
    ((cs.filter q).filter r).length ≤ (cs.filter r).length := by
  induction cs with
  | nil => simp
  | cons c cs ih =>
    by_cases hq : q c = true
    · rw [List.filter_cons_of_pos hq]
      by_cases hr : r c = true
      · rw [List.filter_cons_of_pos hr, List.filter_cons_of_pos hr]
        simpa using ih
      · rw [List.filter_cons_of_neg hr, List.filter_cons_of_neg hr]
        exact ih
    · rw [List.filter_cons_of_neg hq]
      by_cases hr : r c = true
      · rw [List.filter_cons_of_pos hr]
        exact le_trans ih (by simp)
      · rw [List.filter_cons_of_neg hr]
        exact ih

theorem finishDrag_bound (cs : List P4Cable) (s d p : ℕ)
    (h : ((cs.filter fun c => c.dst = p).length ≤ 1)) :
    (((finishDrag cs s d).filter fun c => c.dst = p).length ≤ 1) := by
  rw [finishDrag, List.filter_append]
  by_cases hpd : p = d
  · subst hpd
    rw [filter_ne_filter_eq_nil]
    simp
  · have h1 : (([⟨s, d⟩] : List P4Cable).filter fun c => c.dst = p) = [] := by
      rw [List.filter_cons_of_neg (by simp [Ne.symm hpd])]
      rfl
    rw [h1, List.append_nil]
    calc ((cs.filter fun c => c.dst ≠ d).filter fun c => c.dst = p).length
        ≤ (cs.filter fun c => c.dst = p).length :=
          length_filter_filter_le cs _ _
      _ ≤ 1 := h

theorem runOps_bound (ops : List (ℕ × ℕ)) :
    ∀ (cs : List P4Cable),
      (∀ p, ((cs.filter fun c => c.dst = p).length ≤ 1)) →
      ∀ p, (((ops.foldl (fun l op => finishDrag l op.1 op.2) cs).filter
        fun c => c.dst = p).length ≤ 1) := by
  induction ops with
  | nil => intro cs h p; exact h p
  | cons op ops ih =>
    intro cs h p
    exact ih (finishDrag cs op.1 op.2)
      (fun q => finishDrag_bound cs op.1 op.2 q (h q)) p

/-- C10: completing a connection in prototype4 first deletes every cable into
the target input port and then appends the new one — after the operation the
only cable into that port is the new one, and after any sequence of connect
operations from the fresh (empty) cable list every input port has at most
one incoming cable. -/
theorem c10_single_cable_per_input :
    (∀ (cables : List P4Cable) (s d : ℕ) (c : P4Cable),
        c ∈ finishDrag cables s d → c.dst = d → c = ⟨s, d⟩)
      ∧ ∀ (ops : List (ℕ × ℕ)) (p : ℕ),
          (((runOps ops).filter fun c => c.dst = p).length ≤ 1) := by
  constructor
  · intro cables s d c hc hd
    rw [finishDrag] at hc
    rcases List.mem_append.mp hc with hc | hc
    · have := List.of_mem_filter hc
      simp at this
      exact absurd hd this
    · simpa using hc
  · intro ops p
    exact runOps_bound ops [] (fun q => by simp) p

/-- Witness for `c10_single_cable_per_input`: a concrete replacing connect
sequence. -/
theorem c10_single_cable_per_input_witness :
    (⟨3, 4⟩ : P4Cable) = ⟨3, 4⟩
      ∧ (((runOps [(1, 2), (3, 2)]).filter fun c => c.dst = 2).length ≤ 1) :=
  ⟨c10_single_cable_per_input.1 [⟨9, 4⟩] 3 4 ⟨3, 4⟩ (by decide) rfl,
   c10_single_cable_per_input.2 [(1, 2), (3, 2)] 2⟩

end Spec2Proof
